import Mathlib

/-!
# Verification of the geo-sentiment dashboard data pipeline

Shallow embedding of the data-transformation logic of `src/src/PERFECT1.jsx`:
CSV header resolution, row mapping and filtering, per-country aggregation
(`aggregateData`), the color-value computation (`getColorValue`), and the
load/error state logic of the `App` component.

Modelling conventions:
* JavaScript numbers produced by `parseInt(_, 10)` are modelled as `Option Int`
  (`none` is `NaN`); the values relevant to the claims are tiny, so no
  floating-point rounding is observable.
* A parsed CSV row object (PapaParse `header: true` output) is modelled as the
  association list `headers.zip cells`; property lookup follows JavaScript
  object-assignment semantics (a later assignment to the same key wins).
* The `countryNameToId` constant (`src/constants/countryCodes`, a plain
  name-to-ISO-code dictionary not shipped with the sources) is a parameter
  `codes : String → Option String`; all results hold for every such dictionary.
* The insertion-ordered JS object `countryData` is an association list; no
  claim depends on the enumeration order of `Object.entries`.
-/

namespace GeoSentiment

/-- JavaScript whitespace recognised by `String.prototype.trim` / `parseInt`. -/
def isJsWhitespace (c : Char) : Bool :=
  c = ' ' || c = '\t' || c = '\n' || c = '\r' || c = '\x0b' || c = '\x0c' ||
  c = '\u00A0' || c = '\uFEFF'

/-- JavaScript `String.prototype.toLowerCase` on the (ASCII) strings this
dashboard handles, written over the character list so that it computes by
structural recursion. -/
def jsToLower (s : String) : String := ⟨s.data.map Char.toLower⟩

/-- JavaScript `String.prototype.toUpperCase`, likewise. -/
def jsToUpper (s : String) : String := ⟨s.data.map Char.toUpper⟩

/-- Numeric value of a decimal digit character. -/
def digitVal (c : Char) : Nat := c.toNat - '0'.toNat

/-- Value of a list of decimal digit characters, most significant first. -/
def natOfDigits (ds : List Char) : Nat := ds.foldl (fun a c => 10 * a + digitVal c) 0

/-- JavaScript `parseInt(s, 10)`: skip leading whitespace, read an optional
sign, then the longest prefix of decimal digits; `NaN` (here `none`) if that
prefix is empty. -/
def jsParseInt (s : String) : Option Int :=
  let cs := s.data.dropWhile isJsWhitespace
  match cs with
  | [] => none
  | c :: rest =>
    let sign : Int := if c = '-' then -1 else 1
    let body := if c = '-' ∨ c = '+' then rest else c :: rest
    let ds := body.takeWhile Char.isDigit
    if ds.isEmpty then none else some (sign * (natOfDigits ds : Int))

/-- JavaScript `a || b` on an optional string (`undefined`/`''` are falsy). -/
def jsOrString (o : Option String) (d : String) : String :=
  match o with
  | some s => if s = "" then d else s
  | none => d

/-- Lookup of `key` in a JS object built by assigning the pairs left to right:
a later assignment to the same key overwrites an earlier one. -/
def rowLookup : List (String × String) → String → Option String
  | [], _ => none
  | p :: rest, key =>
    match rowLookup rest key with
    | some v => some v
    | none => if p.1 = key then some p.2 else none

/-- Header resolution (`PERFECT1.jsx` lines 52–65): the first header whose
lower-casing is `name`, else the literal `canonical`. -/
def resolveHeader (headers : List String) (name canonical : String) : String :=
  (headers.find? (fun h => jsToLower h = name)).getD canonical

def countryHeader (headers : List String) : String :=
  resolveHeader headers "country" "Country"

def regionHeader (headers : List String) : String :=
  resolveHeader headers "region" "Region"

def valueHeader (headers : List String) : String :=
  resolveHeader headers "randomvalue" "RandomValue"

/-- A mapped row (`PERFECT1.jsx` lines 68–75): `sentiment` is `none` when
`parseInt` returned `NaN`. -/
structure Row where
  country : String
  region : String
  sentiment : Option Int
  deriving Repr, DecidableEq

/-- The `.map` stage: `row[header] || ''` for the text fields and
`parseInt(row[valueHeader], 10)` for the sentiment (`parseInt(undefined, 10)`
is `NaN`, i.e. `none`). -/
def mapRow (ch rh vh : String) (pairs : List (String × String)) : Row :=
  { country := jsOrString (rowLookup pairs ch) ""
    region := jsOrString (rowLookup pairs rh) ""
    sentiment :=
      match rowLookup pairs vh with
      | some v => jsParseInt v
      | none => none }

/-- The `.filter` predicate (`PERFECT1.jsx` lines 76–87).  `Number.isInteger`
is always true of a non-`NaN` `parseInt` result, so it needs no separate
clause in the integer model. -/
def isValidRow (r : Row) : Bool :=
  !(r.country = "") &&
    (match r.sentiment with
     | some s => decide (0 ≤ s) && decide (s ≤ 2)
     | none => false)

/-- The whole parse-map-filter stage applied to the PapaParse output
(`meta.fields` and the rows' cell lists). -/
def extractData (fields : List String) (rows : List (List String)) : List Row :=
  (rows.map (fun cells =>
    mapRow (countryHeader fields) (regionHeader fields) (valueHeader fields)
      (fields.zip cells))).filter isValidRow

/-- `countryNameToId[row.country] || row.country.toUpperCase()`
(`PERFECT1.jsx` lines 107–108). -/
def countryId (codes : String → Option String) (r : Row) : String :=
  match codes r.country with
  | some v => if v = "" then jsToUpper r.country else v
  | none => jsToUpper r.country

/-- The value stored in `countryData[countryId]`. -/
structure Counts where
  positive : Nat
  neutral : Nat
  negative : Nat
  displayName : String
  deriving Repr, DecidableEq

/-- Sentiment branch of the `forEach` body (`PERFECT1.jsx` lines 123–125). -/
def bump (c : Counts) (s : Option Int) : Counts :=
  if s = some 2 then { c with positive := c.positive + 1 }
  else if s = some 1 then { c with neutral := c.neutral + 1 }
  else if s = some 0 then { c with negative := c.negative + 1 }
  else c

/-- The `countryData` object, in insertion order. -/
abbrev AggState := List (String × Counts)

/-- Entry of `countryData` for key `id`. -/
def entryFor (id : String) (st : AggState) : Option Counts :=
  (st.find? (fun p => p.1 = id)).map (fun p => p.2)

/-- One iteration of the `forEach` (`PERFECT1.jsx` lines 106–126): create the
country's entry when absent, then bump the counter selected by the sentiment. -/
def stepRow (codes : String → Option String) (st : AggState) (r : Row) : AggState :=
  let id := countryId codes r
  let st' := if (st.find? (fun p => p.1 = id)).isSome then st
             else st ++ [(id, ⟨0, 0, 0, r.country⟩)]
  st'.map (fun p => if p.1 = id then (p.1, bump p.2 r.sentiment) else p)

/-- An element of the array returned by `aggregateData`. -/
structure AggEntry where
  id : String
  displayName : String
  positive : Nat
  neutral : Nat
  negative : Nat
  total : Nat
  deriving Repr, DecidableEq

/-- The `Object.entries(countryData).map(...)` stage (`PERFECT1.jsx`
lines 127–135); `counts.positive || 0` is the identity on a count. -/
def finalizeEntry (p : String × Counts) : AggEntry :=
  { id := p.1
    displayName := p.2.displayName
    positive := p.2.positive
    neutral := p.2.neutral
    negative := p.2.negative
    total := p.2.positive + p.2.neutral + p.2.negative }

/-- `aggregateData` (`PERFECT1.jsx` lines 104–138). -/
def aggregateData (codes : String → Option String) (rows : List Row) : List AggEntry :=
  (rows.foldl (stepRow codes) []).map finalizeEntry

/-- `aggregateData` instrumented with a counter of `forEach` iterations. -/
def aggregateDataInstr (codes : String → Option String) (rows : List Row) :
    List AggEntry × Nat :=
  let p := rows.foldl (fun (p : AggState × Nat) r => (stepRow codes p.1 r, p.2 + 1)) ([], 0)
  (p.1.map finalizeEntry, p.2)

/-- The unguarded part of `getColorValue` (`PERFECT1.jsx` lines 276–288):
ratios per view, and for the overall view the normalised sentiment score. -/
def getColorValueBody (cd : AggEntry) (view : String) : ℚ :=
  if view = "positive" then (cd.positive : ℚ) / (cd.total : ℚ)
  else if view = "neutral" then (cd.neutral : ℚ) / (cd.total : ℚ)
  else if view = "negative" then (cd.negative : ℚ) / (cd.total : ℚ)
  else
    let score : ℚ :=
      (2 * (cd.positive : ℚ) + (cd.neutral : ℚ) - 2 * (cd.negative : ℚ)) /
        (2 * (cd.total : ℚ))
    (score + 1) / 2

/-- `getColorValue` (`PERFECT1.jsx` lines 274–289).  The JS `!countryData`
null check disappears in the typed model. -/
def getColorValue (cd : AggEntry) (view : String) : ℚ :=
  if cd.total = 0 then 0 else getColorValueBody cd view

/-- The error/data state of the `App` component after the load effect. -/
structure AppState where
  error : Option String
  data : List Row
  deriving Repr, DecidableEq

/-- The message of `PERFECT1.jsx` line 91. -/
def noValidDataMsg : String :=
  "No valid data found. Check CSV format (headers: Country,Region,RandomValue)."

/-- PapaParse output: the header fields and the rows' (trimmed) cells. -/
structure Csv where
  fields : List String
  rows : List (List String)

/-- Outcome of the load effect (`PERFECT1.jsx` lines 23–101) on a fetch
result: a failed fetch (`Except.error` carries the thrown error's message)
sets the catch-branch message; an empty filtered row list sets the fixed
no-valid-data message; otherwise the data state is set. -/
def loadResult (fetched : Except String Csv) : AppState :=
  match fetched with
  | .error e => { error := some ("Failed to load data: " ++ e), data := [] }
  | .ok csv =>
    let d := extractData csv.fields csv.rows
    if d.isEmpty then { error := some noValidDataMsg, data := [] }
    else { error := none, data := d }

/-- What `App` renders (`PERFECT1.jsx` lines 369–520). -/
inductive RenderKind where
  | errorView (msg : String)
  | loading
  | dashboard
  deriving Repr, DecidableEq

/-- The render branches: a truthy `error` shows the error view, otherwise an
empty `data` shows the loading view, otherwise the dashboard. -/
def render (s : AppState) : RenderKind :=
  match s.error with
  | some m => if m = "" then (if s.data.isEmpty then .loading else .dashboard)
              else .errorView m
  | none => if s.data.isEmpty then .loading else .dashboard

/-- The count fields of an aggregated entry, as one tuple. -/
def countsQuad (e : AggEntry) : Nat × Nat × Nat × Nat :=
  (e.positive, e.neutral, e.negative, e.total)

/-- Whether a row is tallied under country identifier `id`. -/
def matchesId (codes : String → Option String) (id : String) (r : Row) : Bool :=
  decide (countryId codes r = id)

/-- Number of rows tallied under `id` whose sentiment is positive. -/
def tallyPos (codes : String → Option String) (id : String) (rows : List Row) : Nat :=
  rows.countP (fun r => matchesId codes id r && decide (r.sentiment = some 2))

/-- Number of rows tallied under `id` whose sentiment is neutral. -/
def tallyNeu (codes : String → Option String) (id : String) (rows : List Row) : Nat :=
  rows.countP (fun r => matchesId codes id r && decide (r.sentiment = some 1))

/-- Number of rows tallied under `id` whose sentiment is negative. -/
def tallyNeg (codes : String → Option String) (id : String) (rows : List Row) : Nat :=
  rows.countP (fun r => matchesId codes id r && decide (r.sentiment = some 0))

/-- `base` with the tallies of `rows` under `id` added to its counters. -/
def tallyCounts (codes : String → Option String) (id : String) (rows : List Row)
    (base : Counts) : Counts :=
  { base with
    positive := base.positive + tallyPos codes id rows
    neutral := base.neutral + tallyNeu codes id rows
    negative := base.negative + tallyNeg codes id rows }

/-- The entry the `forEach` body reads for the current row: the existing one,
or the freshly created `{positive: 0, neutral: 0, negative: 0, displayName}`. -/
def currentOrNew (codes : String → Option String) (st : AggState) (r : Row) : Counts :=
  (entryFor (countryId codes r) st).getD ⟨0, 0, 0, r.country⟩

section Lemmas

variable {codes : String → Option String}

theorem rowLookup_of_forall_ne {pairs : List (String × String)} {key : String}
    (h : ∀ p ∈ pairs, p.1 ≠ key) : rowLookup pairs key = none := by
  induction pairs with
  | nil => rfl
  | cons p rest ih =>
    have hrest : rowLookup rest key = none := ih (fun q hq => h q (List.mem_cons_of_mem p hq))
    simp [rowLookup, hrest, h p (List.mem_cons_self p rest)]

theorem rowLookup_cons_ne {p : String × String} {pairs : List (String × String)}
    {key : String} (h : p.1 ≠ key) :
    rowLookup (p :: pairs) key = rowLookup pairs key := by
  simp only [rowLookup, h, if_false]
  cases rowLookup pairs key <;> rfl

theorem entryFor_nil (id : String) : entryFor id ([] : AggState) = none := rfl

theorem entryFor_cons (q : String × Counts) (st : AggState) (id : String) :
    entryFor id (q :: st) = if q.1 = id then some q.2 else entryFor id st := by
  by_cases h : q.1 = id
  · rw [if_pos h]
    simp only [entryFor]
    rw [List.find?_cons_of_pos _ (by simpa using h)]
    rfl
  · rw [if_neg h]
    simp only [entryFor]
    rw [List.find?_cons_of_neg _ (by simpa using h)]

theorem entryFor_map_update (id : String) (s : Option Int) (st : AggState) :
    entryFor id (st.map (fun p => if p.1 = id then (p.1, bump p.2 s) else p)) =
      (entryFor id st).map (fun c => bump c s) := by
  induction st with
  | nil => rfl
  | cons p st ih =>
    simp only [List.map_cons]
    by_cases h : p.1 = id
    · rw [if_pos h]
      simp [entryFor_cons, h]
    · rw [if_neg h]
      simp [entryFor_cons, h, ih]

theorem entryFor_map_update_ne {id id' : String} (h : id' ≠ id) (s : Option Int)
    (st : AggState) :
    entryFor id' (st.map (fun p => if p.1 = id then (p.1, bump p.2 s) else p)) =
      entryFor id' st := by
  induction st with
  | nil => rfl
  | cons p st ih =>
    simp only [List.map_cons]
    by_cases hp : p.1 = id
    · rw [if_pos hp]
      have hne : p.1 ≠ id' := by rw [hp]; exact fun hh => h hh.symm
      simp [entryFor_cons, hne, ih]
    · rw [if_neg hp]
      by_cases hq : p.1 = id'
      · simp [entryFor_cons, hq]
      · simp [entryFor_cons, hq, ih]

theorem entryFor_append (id : String) (st₁ st₂ : AggState) :
    entryFor id (st₁ ++ st₂) =
      match entryFor id st₁ with
      | some c => some c
      | none => entryFor id st₂ := by
  induction st₁ with
  | nil => simp [entryFor_nil]
  | cons p st ih =>
    simp only [List.cons_append, entryFor_cons]
    by_cases h : p.1 = id
    · simp [h]
    · simp [h, ih]

theorem entryFor_stepRow_self (codes : String → Option String) (st : AggState) (r : Row)
    {id : String} (h : countryId codes r = id) :
    entryFor id (stepRow codes st r) =
      some (bump ((entryFor id st).getD ⟨0, 0, 0, r.country⟩) r.sentiment) := by
  subst h
  simp only [stepRow]
  cases hf : (st.find? (fun p => p.1 = countryId codes r)) with
  | some q =>
    have : entryFor (countryId codes r) st = some q.2 := by
      simp [entryFor, hf]
    rw [if_pos (by simp [hf])]
    rw [entryFor_map_update]
    simp [this]
  | none =>
    have hst : entryFor (countryId codes r) st = none := by
      simp [entryFor, hf]
    rw [if_neg (by simp [hf])]
    rw [entryFor_map_update, entryFor_append]
    simp [hst, entryFor_cons]

theorem entryFor_stepRow_ne (codes : String → Option String) (st : AggState) (r : Row)
    {id' : String} (h : countryId codes r ≠ id') :
    entryFor id' (stepRow codes st r) = entryFor id' st := by
  simp only [stepRow]
  rw [entryFor_map_update_ne (fun hh => h hh.symm)]
  cases hf : (st.find? (fun p => p.1 = countryId codes r)) with
  | some q => rw [if_pos (by simp [hf])]
  | none =>
    rw [if_neg (by simp [hf])]
    rw [entryFor_append]
    cases hst : entryFor id' st with
    | some c => rfl
    | none => simp [entryFor_cons, entryFor_nil, h]

theorem tallyCounts_nil (id : String) (base : Counts) :
    tallyCounts codes id [] base = base := by
  cases base
  simp [tallyCounts, tallyPos, tallyNeu, tallyNeg]

theorem tallyCounts_bump {id : String} {r : Row} (rows : List Row) (c : Counts)
    (hm : matchesId codes id r = true) :
    tallyCounts codes id rows (bump c r.sentiment) = tallyCounts codes id (r :: rows) c := by
  cases c
  simp only [tallyCounts, tallyPos, tallyNeu, tallyNeg, List.countP_cons, hm, Bool.true_and,
    bump]
  rcases hs : r.sentiment with _ | s
  · simp [hs]
  · by_cases h2 : s = 2
    · subst h2; simp [hs]; omega
    · by_cases h1 : s = 1
      · subst h1; simp [hs]; omega
      · by_cases h0 : s = 0
        · subst h0; simp [hs]; omega
        · have e2 : ¬ ((some s : Option Int) = some 2) := by simp [h2]
          have e1 : ¬ ((some s : Option Int) = some 1) := by simp [h1]
          have e0 : ¬ ((some s : Option Int) = some 0) := by simp [h0]
          simp [hs, e2, e1, e0]

theorem tallyCounts_cons_notMatch {id : String} {r : Row} (rows : List Row) (c : Counts)
    (hm : matchesId codes id r = false) :
    tallyCounts codes id (r :: rows) c = tallyCounts codes id rows c := by
  simp [tallyCounts, tallyPos, tallyNeu, tallyNeg, List.countP_cons, hm]

/-- Running the `forEach` over `rows` starting from an arbitrary `countryData`
state: the entry for `id` gains exactly the tallies of `rows`, and is created
from the first row tallied under `id` when it did not exist. -/
theorem entryFor_foldl (codes : String → Option String) (rows : List Row) :
    ∀ (st : AggState) (id : String),
      entryFor id (rows.foldl (stepRow codes) st) =
        match entryFor id st with
        | some c => some (tallyCounts codes id rows c)
        | none =>
          match rows.find? (matchesId codes id) with
          | some r0 => some (tallyCounts codes id rows ⟨0, 0, 0, r0.country⟩)
          | none => none := by
  induction rows with
  | nil =>
    intro st id
    simp only [List.foldl_nil, List.find?_nil]
    cases h : entryFor id st <;> simp [h, tallyCounts_nil]
  | cons r rows ih =>
    intro st id
    simp only [List.foldl_cons]
    rw [ih]
    by_cases hm : countryId codes r = id
    · have hmat : matchesId codes id r = true := by simp [matchesId, hm]
      rw [entryFor_stepRow_self codes st r hm]
      rw [List.find?_cons_of_pos _ hmat]
      cases hst : entryFor id st with
      | some c => simp [hst, tallyCounts_bump rows c hmat]
      | none => simp [hst, tallyCounts_bump rows _ hmat]
    · have hmat : matchesId codes id r = false := by simp [matchesId, hm]
      rw [entryFor_stepRow_ne codes st r hm]
      rw [List.find?_cons_of_neg _ (by simp [hmat])]
      cases hst : entryFor id st with
      | some c => simp [hst, tallyCounts_cons_notMatch rows c hmat]
      | none =>
        cases hfind : rows.find? (matchesId codes id) with
        | some r0 => simp [hst, hfind, tallyCounts_cons_notMatch rows _ hmat]
        | none => simp [hst, hfind]

/-- Specialisation of `entryFor_foldl` to the empty initial state used by
`aggregateData`. -/
theorem entryFor_buildState (codes : String → Option String) (rows : List Row) (id : String) :
    entryFor id (rows.foldl (stepRow codes) []) =
      match rows.find? (matchesId codes id) with
      | some r0 => some (tallyCounts codes id rows ⟨0, 0, 0, r0.country⟩)
      | none => none := by
  rw [entryFor_foldl codes rows [] id]
  simp [entryFor_nil]

theorem find?_map_finalize (st : AggState) (id : String) :
    (st.map finalizeEntry).find? (fun e => decide (e.id = id)) =
      (entryFor id st).map (fun c => finalizeEntry (id, c)) := by
  induction st with
  | nil => rfl
  | cons q st ih =>
    simp only [List.map_cons, entryFor_cons]
    by_cases h : q.1 = id
    · obtain ⟨a, b⟩ := q
      subst h
      rw [List.find?_cons_of_pos _ (by simp [finalizeEntry])]
      simp
    · rw [List.find?_cons_of_neg _ (by simp [finalizeEntry, h])]
      simp [h, ih]

/-- The entry of `aggregateData` for identifier `id`: present exactly when a
row is tallied under `id`, with the tallies as counts and the first such
row's `country` as display name. -/
theorem find?_aggregateData (codes : String → Option String) (rows : List Row)
    (id : String) :
    (aggregateData codes rows).find? (fun e => decide (e.id = id)) =
      match rows.find? (matchesId codes id) with
      | some r0 =>
        some (finalizeEntry (id, tallyCounts codes id rows ⟨0, 0, 0, r0.country⟩))
      | none => none := by
  unfold aggregateData
  rw [find?_map_finalize, entryFor_buildState]
  cases rows.find? (matchesId codes id) <;> rfl

theorem keys_map_update (codes : String → Option String) (r : Row) (st : AggState) :
    (st.map (fun p =>
      if p.1 = countryId codes r then (p.1, bump p.2 r.sentiment) else p)).map Prod.fst =
      st.map Prod.fst := by
  induction st with
  | nil => rfl
  | cons p st ih =>
    by_cases h : p.1 = countryId codes r
    · simp only [List.map_cons, if_pos h, ih]
    · simp only [List.map_cons, if_neg h, ih]

theorem keys_stepRow (codes : String → Option String) (st : AggState) (r : Row) :
    (stepRow codes st r).map Prod.fst =
      if (st.find? (fun p => p.1 = countryId codes r)).isSome then st.map Prod.fst
      else st.map Prod.fst ++ [countryId codes r] := by
  simp only [stepRow]
  cases hf : (st.find? (fun p => p.1 = countryId codes r)) with
  | some q =>
    rw [if_pos (by simp [hf]), if_pos (by simp [hf])]
    exact keys_map_update codes r st
  | none =>
    rw [if_neg (by simp [hf]), if_neg (by simp [hf])]
    rw [keys_map_update codes r]
    simp

theorem mem_keys_of_entryFor {id : String} {st : AggState}
    (h : entryFor id st ≠ none) : id ∈ st.map Prod.fst := by
  induction st with
  | nil => exact absurd rfl h
  | cons q st ih =>
    rw [entryFor_cons] at h
    by_cases hq : q.1 = id
    · simp [hq]
    · rw [if_neg hq] at h
      simp [ih h]

theorem entryFor_eq_none_of_not_mem {id : String} {st : AggState}
    (h : id ∉ st.map Prod.fst) : entryFor id st = none := by
  induction st with
  | nil => rfl
  | cons q st ih =>
    simp only [List.map_cons, List.mem_cons, not_or] at h
    rw [entryFor_cons, if_neg (fun hq => h.1 hq.symm), ih h.2]

/-- The keys of `countryData` stay duplicate-free throughout the fold. -/
theorem keys_nodup_foldl (codes : String → Option String) (rows : List Row) :
    ∀ st : AggState, (st.map Prod.fst).Nodup →
      (((rows.foldl (stepRow codes) st)).map Prod.fst).Nodup := by
  induction rows with
  | nil => intro st h; simpa using h
  | cons r rows ih =>
    intro st h
    simp only [List.foldl_cons]
    apply ih
    rw [keys_stepRow]
    cases hf : (st.find? (fun p => p.1 = countryId codes r)) with
    | some q => rw [if_pos (by simp [hf])]; exact h
    | none =>
      rw [if_neg (by simp [hf])]
      have hnotin : countryId codes r ∉ st.map Prod.fst := by
        intro hmem
        rcases List.mem_map.mp hmem with ⟨p, hp, hpe⟩
        have : st.find? (fun p => decide (p.1 = countryId codes r)) ≠ none := by
          intro hnone
          have := List.find?_eq_none.mp hnone p hp
          simp [hpe] at this
        exact this hf
      rw [List.nodup_append]
      refine ⟨h, List.nodup_singleton _, ?_⟩
      intro a ha hb
      rw [List.mem_singleton] at hb
      subst hb
      exact hnotin ha

/-- With duplicate-free keys, `find?` retrieves exactly the member pair. -/
theorem find?_of_mem_nodup_keys {st : AggState} {q : String × Counts}
    (hnd : (st.map Prod.fst).Nodup) (hq : q ∈ st) :
    st.find? (fun p => decide (p.1 = q.1)) = some q := by
  induction st with
  | nil => cases hq
  | cons p st ih =>
    rcases List.mem_cons.mp hq with h | h
    · subst h
      exact List.find?_cons_of_pos _ (by simp)
    · have hnd' : (st.map Prod.fst).Nodup := (List.nodup_cons.mp hnd).2
      have hp1 : p.1 ∉ st.map Prod.fst := (List.nodup_cons.mp hnd).1
      have hne : p.1 ≠ q.1 := by
        intro he
        exact hp1 (he ▸ List.mem_map.mpr ⟨q, h, rfl⟩)
      rw [List.find?_cons_of_neg _ (by simp [hne])]
      exact ih hnd' h

theorem isValidRow_iff (r : Row) :
    isValidRow r = true ↔
      r.country ≠ "" ∧ ∃ s : Int, r.sentiment = some s ∧ 0 ≤ s ∧ s ≤ 2 := by
  unfold isValidRow
  rcases hs : r.sentiment with _ | s
  · simp [hs]
  · simp [hs, and_assoc]

theorem tally_sum (codes : String → Option String) (id : String) (rows : List Row)
    (h : ∀ r ∈ rows, isValidRow r = true) :
    tallyPos codes id rows + tallyNeu codes id rows + tallyNeg codes id rows =
      rows.countP (matchesId codes id) := by
  induction rows with
  | nil => rfl
  | cons r rows ih =>
    have hr := h r (List.mem_cons_self r rows)
    have htail := ih (fun x hx => h x (List.mem_cons_of_mem r hx))
    simp only [tallyPos, tallyNeu, tallyNeg, List.countP_cons] at htail ⊢
    cases hm : matchesId codes id r with
    | false => simp only [hm, Bool.false_and, if_neg Bool.false_ne_true]; omega
    | true =>
      obtain ⟨-, s, hsent, hs0, hs2⟩ := (isValidRow_iff r).mp hr
      have : s = 0 ∨ s = 1 ∨ s = 2 := by omega
      rcases this with rfl | rfl | rfl <;>
        simp only [hm, Bool.true_and, hsent, Option.some.injEq] <;> norm_num <;> omega

theorem find?_agg_of_mem {codes : String → Option String} {rows : List Row} {e : AggEntry}
    (he : e ∈ aggregateData codes rows) :
    (aggregateData codes rows).find? (fun x => decide (x.id = e.id)) = some e := by
  unfold aggregateData at he ⊢
  rcases List.mem_map.mp he with ⟨q, hq, rfl⟩
  have hnd : ((rows.foldl (stepRow codes) []).map Prod.fst).Nodup :=
    keys_nodup_foldl codes rows [] (by simp)
  have hfind := find?_of_mem_nodup_keys hnd hq
  rw [find?_map_finalize]
  have hef : entryFor q.1 (rows.foldl (stepRow codes) []) = some q.2 := by
    simp [entryFor, hfind]
  have hid : (finalizeEntry q).id = q.1 := rfl
  rw [hid, hef]
  rfl

/-- Every member of `aggregateData` carries exactly the tallies of the rows
mapped to its identifier, with the first such row's name on display. -/
theorem counts_of_mem {codes : String → Option String} {rows : List Row} {e : AggEntry}
    (he : e ∈ aggregateData codes rows) :
    ∃ r0, rows.find? (matchesId codes e.id) = some r0 ∧
      e.positive = tallyPos codes e.id rows ∧
      e.neutral = tallyNeu codes e.id rows ∧
      e.negative = tallyNeg codes e.id rows ∧
      e.total = tallyPos codes e.id rows + tallyNeu codes e.id rows +
        tallyNeg codes e.id rows ∧
      e.displayName = r0.country := by
  have h1 := find?_agg_of_mem he
  rw [find?_aggregateData] at h1
  cases hf : rows.find? (matchesId codes e.id) with
  | none => rw [hf] at h1; cases h1
  | some r0 =>
    rw [hf] at h1
    refine ⟨r0, rfl, ?_⟩
    have he2 : e = finalizeEntry (e.id, tallyCounts codes e.id rows ⟨0, 0, 0, r0.country⟩) :=
      (Option.some.injEq _ _ ▸ h1).symm
    rw [he2]
    simp [finalizeEntry, tallyCounts]

theorem foldl_instr (codes : String → Option String) (rows : List Row) :
    ∀ (st : AggState) (n : Nat),
      rows.foldl (fun (p : AggState × Nat) r => (stepRow codes p.1 r, p.2 + 1)) (st, n) =
        (rows.foldl (stepRow codes) st, n + rows.length) := by
  induction rows with
  | nil => intro st n; simp
  | cons r rows ih =>
    intro st n
    simp only [List.foldl_cons, List.length_cons]
    rw [ih]
    refine congrArg _ ?_
    omega

theorem resolveHeader_toLower {H : List String} {name canonical : String}
    (hc : jsToLower canonical = name) :
    jsToLower (resolveHeader H name canonical) = name := by
  unfold resolveHeader
  cases hf : H.find? (fun h => jsToLower h = name) with
  | none => simpa using hc
  | some a =>
    have := List.find?_some hf
    simpa using this

/-- Header resolution and row lookup agree on any two header rows that are
element-wise casing variants of each other (no duplicate header names). -/
theorem rowLookup_resolve_congr (name canonical : String)
    (hc : jsToLower canonical = name) :
    ∀ (H K : List String) (cells : List String),
      H.map jsToLower = K.map jsToLower → H.Nodup → K.Nodup →
      rowLookup (H.zip cells) (resolveHeader H name canonical) =
        rowLookup (K.zip cells) (resolveHeader K name canonical) := by
  intro H
  induction H with
  | nil =>
    intro K cells hmap _ _
    have hk : K = [] := by
      have := congrArg List.length hmap
      simpa using List.eq_nil_of_length_eq_zero (by simpa using this.symm)
    subst hk
    rfl
  | cons h H ih =>
    intro K cells hmap hndH hndK
    cases K with
    | nil => simp at hmap
    | cons k K' =>
      simp only [List.map_cons, List.cons.injEq] at hmap
      obtain ⟨hhk, htl⟩ := hmap
      cases cells with
      | nil => rfl
      | cons c cs =>
        simp only [List.zip_cons_cons]
        by_cases hp : jsToLower h = name
        · have hk : jsToLower k = name := by rw [← hhk]; exact hp
          have rH : resolveHeader (h :: H) name canonical = h := by
            unfold resolveHeader
            rw [List.find?_cons_of_pos _ (by simp [hp])]
            rfl
          have rK : resolveHeader (k :: K') name canonical = k := by
            unfold resolveHeader
            rw [List.find?_cons_of_pos _ (by simp [hk])]
            rfl
          rw [rH, rK]
          have hHn : rowLookup (H.zip cs) h = none := by
            apply rowLookup_of_forall_ne
            intro q hq hq1
            exact (List.nodup_cons.mp hndH).1 (hq1 ▸ (List.of_mem_zip hq).1)
          have hKn : rowLookup (K'.zip cs) k = none := by
            apply rowLookup_of_forall_ne
            intro q hq hq1
            exact (List.nodup_cons.mp hndK).1 (hq1 ▸ (List.of_mem_zip hq).1)
          simp [rowLookup, hHn, hKn]
        · have hkp : ¬ jsToLower k = name := by rw [← hhk]; exact hp
          have rH : resolveHeader (h :: H) name canonical = resolveHeader H name canonical := by
            unfold resolveHeader
            rw [List.find?_cons_of_neg _ (by simp [hp])]
          have rK : resolveHeader (k :: K') name canonical =
              resolveHeader K' name canonical := by
            unfold resolveHeader
            rw [List.find?_cons_of_neg _ (by simp [hkp])]
          rw [rH, rK]
          rw [rowLookup_cons_ne (by
            intro he
            have he' : h = resolveHeader H name canonical := he
            exact hp (by rw [he']; exact resolveHeader_toLower hc))]
          rw [rowLookup_cons_ne (by
            intro he
            have he' : k = resolveHeader K' name canonical := he
            exact hkp (by rw [he']; exact resolveHeader_toLower hc))]
          exact ih K' cs htl (List.nodup_cons.mp hndH).2 (List.nodup_cons.mp hndK).2

theorem entryFor_ne_none_iff (id : String) (st : AggState) :
    entryFor id st ≠ none ↔ id ∈ st.map Prod.fst := by
  constructor
  · exact mem_keys_of_entryFor
  · intro hmem hnone
    have hfind : st.find? (fun p => decide (p.1 = id)) = none := by
      unfold entryFor at hnone
      exact Option.map_eq_none'.mp hnone
    rcases List.mem_map.mp hmem with ⟨q, hq, rfl⟩
    have := List.find?_eq_none.mp hfind q hq
    simp at this

end Lemmas

section Claims

/-- C1: For every list of parsed rows, every entry produced by `aggregateData`
has non-negative integer counts `positive`, `neutral`, `negative` (they live
in `ℕ`), and its `total` field equals `positive + neutral + negative`. -/
theorem aggregateData_total_eq_sum (codes : String → Option String) (rows : List Row)
    (e : AggEntry) (he : e ∈ aggregateData codes rows) :
    0 ≤ e.positive ∧ 0 ≤ e.neutral ∧ 0 ≤ e.negative ∧
      e.total = e.positive + e.neutral + e.negative := by
  refine ⟨Nat.zero_le _, Nat.zero_le _, Nat.zero_le _, ?_⟩
  unfold aggregateData at he
  rcases List.mem_map.mp he with ⟨q, -, rfl⟩
  rfl

theorem aggregateData_total_eq_sum_witness :
    0 ≤ (1 : Nat) ∧ 0 ≤ (0 : Nat) ∧ 0 ≤ (0 : Nat) ∧ (1 : Nat) = 1 + 0 + 0 :=
  aggregateData_total_eq_sum (fun _ => some "FR") [⟨"France", "Europe", some 2⟩]
    ⟨"FR", "France", 1, 0, 0, 1⟩ (by decide)

/-- C2: In `aggregateData`, a kept row with sentiment 0 increments exactly its
country's `negative` count, sentiment 1 exactly its `neutral` count, and
sentiment 2 exactly its `positive` count, leaving the other two counts
unchanged (the updated entry differs from the existing-or-new entry only in
the incremented field), and every other country's entry is untouched. -/
theorem stepRow_sentiment_increments (codes : String → Option String) (st : AggState)
    (r : Row) (id' : String) (hne : id' ≠ countryId codes r) :
    (r.sentiment = some 0 →
      entryFor (countryId codes r) (stepRow codes st r) =
        some { currentOrNew codes st r with
               negative := (currentOrNew codes st r).negative + 1 }) ∧
    (r.sentiment = some 1 →
      entryFor (countryId codes r) (stepRow codes st r) =
        some { currentOrNew codes st r with
               neutral := (currentOrNew codes st r).neutral + 1 }) ∧
    (r.sentiment = some 2 →
      entryFor (countryId codes r) (stepRow codes st r) =
        some { currentOrNew codes st r with
               positive := (currentOrNew codes st r).positive + 1 }) ∧
    entryFor id' (stepRow codes st r) = entryFor id' st := by
  refine ⟨?_, ?_, ?_, entryFor_stepRow_ne codes st r (Ne.symm hne)⟩
  all_goals intro hs
  all_goals rw [entryFor_stepRow_self codes st r rfl]
  all_goals rw [hs]
  · simp [bump, currentOrNew]
  · simp [bump, currentOrNew]
  · simp [bump, currentOrNew]

theorem stepRow_sentiment_increments_witness :
    ("X" ≠ countryId (fun _ => some "FR") ⟨"France", "EU", some 0⟩) ∧
    entryFor (countryId (fun _ => some "FR") ⟨"France", "EU", some 0⟩)
        (stepRow (fun _ => some "FR") [] ⟨"France", "EU", some 0⟩) =
      some { currentOrNew (fun _ => some "FR") [] ⟨"France", "EU", some 0⟩ with
             negative :=
               (currentOrNew (fun _ => some "FR") [] ⟨"France", "EU", some 0⟩).negative + 1 } :=
  ⟨by decide,
    (stepRow_sentiment_increments (fun _ => some "FR") [] ⟨"France", "EU", some 0⟩ "X"
      (by decide)).1 rfl⟩

/-- C4: A parsed CSV row is kept for aggregation if and only if its country
cell is present and non-empty and its `RandomValue` cell parses (via
`parseInt` base 10) to an integer in `{0, 1, 2}`. -/
theorem kept_row_iff (ch rh vh : String) (pairs : List (String × String)) :
    isValidRow (mapRow ch rh vh pairs) = true ↔
      (∃ c, rowLookup pairs ch = some c ∧ c ≠ "") ∧
      (∃ v s, rowLookup pairs vh = some v ∧ jsParseInt v = some s ∧ 0 ≤ s ∧ s ≤ 2) := by
  rw [isValidRow_iff]
  constructor
  · rintro ⟨hc, s, hs, h0, h2⟩
    constructor
    · rcases hl : rowLookup pairs ch with _ | c
      · exact absurd (by simp [mapRow, hl, jsOrString]) hc
      · refine ⟨c, rfl, ?_⟩
        intro hce
        exact hc (by simp [mapRow, hl, jsOrString, hce])
    · rcases hv : rowLookup pairs vh with _ | v
      · exact absurd hs (by simp [mapRow, hv])
      · exact ⟨v, s, rfl, by simpa [mapRow, hv] using hs, h0, h2⟩
  · rintro ⟨⟨c, hl, hcne⟩, v, s, hv, hps, h0, h2⟩
    refine ⟨?_, s, ?_, h0, h2⟩
    · simp [mapRow, hl, jsOrString, if_neg hcne]
      exact hcne
    · simp [mapRow, hv, hps]

/-- C7: `aggregateData` is a terminating single pass: the instrumented fold
returns the very result of `aggregateData` together with an iteration count
equal to the number of rows, for every finite row list. -/
theorem aggregateData_single_pass (codes : String → Option String) (rows : List Row) :
    aggregateDataInstr codes rows = (aggregateData codes rows, rows.length) := by
  unfold aggregateDataInstr aggregateData
  rw [foldl_instr codes rows [] 0]
  simp

/-- C3 (amended): a failed fetch sets the error state to the fixed prefix
`"Failed to load data: "` followed by the failure's message, an empty or
invalid CSV (zero valid rows) sets it to the fixed no-valid-data message, and
in both cases the error view is rendered; the data state is set (and the
dashboard rendered) exactly when at least one valid row exists. -/
theorem load_error_handling (csv : Csv) (e : String) :
    ((loadResult (.error e)).error = some ("Failed to load data: " ++ e) ∧
     (loadResult (.error e)).data = [] ∧
     render (loadResult (.error e)) = .errorView ("Failed to load data: " ++ e)) ∧
    (extractData csv.fields csv.rows = [] →
      loadResult (.ok csv) = ⟨some noValidDataMsg, []⟩ ∧
      render (loadResult (.ok csv)) = .errorView noValidDataMsg) ∧
    (extractData csv.fields csv.rows ≠ [] →
      (loadResult (.ok csv)).error = none ∧
      (loadResult (.ok csv)).data = extractData csv.fields csv.rows ∧
      render (loadResult (.ok csv)) = .dashboard) := by
  have hmsg : ("Failed to load data: " ++ e) ≠ "" := by
    intro h
    have := congrArg String.length h
    rw [String.length_append] at this
    have h21 : ("Failed to load data: " : String).length = 21 := by decide
    simp [h21] at this
  refine ⟨⟨rfl, rfl, ?_⟩, ?_, ?_⟩
  · simp [render, loadResult, hmsg]
  · intro h
    have hne : noValidDataMsg ≠ "" := by decide
    constructor
    · simp [loadResult, h]
    · simp [render, loadResult, h, hne]
  · intro h
    have hie : (extractData csv.fields csv.rows).isEmpty = false := by
      rcases hx : extractData csv.fields csv.rows with _ | ⟨a, l⟩
      · exact absurd hx h
      · rfl
    refine ⟨?_, ?_, ?_⟩
    · simp [loadResult, hie]
    · simp [loadResult, hie]
    · simp [render, loadResult, hie]

theorem load_error_handling_witness :
    extractData ["Country", "Region", "RandomValue"] [] = [] ∧
    loadResult (.ok ⟨["Country", "Region", "RandomValue"], []⟩) =
      ⟨some noValidDataMsg, []⟩ ∧
    render (loadResult (.ok ⟨["Country", "Region", "RandomValue"], []⟩)) =
      .errorView noValidDataMsg :=
  ⟨rfl, (load_error_handling ⟨["Country", "Region", "RandomValue"], []⟩ "x").2.1 rfl⟩

/-- C3, as frozen, is refuted here: the error state after a failed fetch is
not one fixed message — two different fetch failures produce two different
error strings. -/
theorem load_error_not_fixed_message :
    (loadResult (.error "A")).error = some "Failed to load data: A" ∧
    (loadResult (.error "B")).error = some "Failed to load data: B" ∧
    ("Failed to load data: A" : String) ≠ "Failed to load data: B" :=
  ⟨rfl, rfl, by decide⟩

/-- C5: the aggregate is a per-country tally: for entries built from kept
rows, the `total` field equals the number of kept rows mapped (via the code
dictionary, falling back to the upper-cased name) to the entry's identifier;
the identifiers are duplicate-free; and an identifier has an entry exactly
when some kept row maps to it. -/
theorem aggregateData_per_country_tally (codes : String → Option String)
    (rows : List Row) (hv : ∀ r ∈ rows, isValidRow r = true) :
    (∀ e ∈ aggregateData codes rows,
      e.total = rows.countP (fun r => matchesId codes e.id r)) ∧
    ((aggregateData codes rows).map AggEntry.id).Nodup ∧
    (∀ id : String,
      id ∈ (aggregateData codes rows).map AggEntry.id ↔
        ∃ r ∈ rows, countryId codes r = id) := by
  have hids : (aggregateData codes rows).map AggEntry.id =
      (rows.foldl (stepRow codes) []).map Prod.fst := by
    unfold aggregateData
    rw [List.map_map]
    rfl
  refine ⟨?_, ?_, ?_⟩
  · intro e he
    obtain ⟨r0, -, -, -, -, ht, -⟩ := counts_of_mem he
    rw [ht, tally_sum codes e.id rows hv]
  · rw [hids]
    exact keys_nodup_foldl codes rows [] (by simp)
  · intro id
    rw [hids, ← entryFor_ne_none_iff, entryFor_buildState]
    cases hf : rows.find? (matchesId codes id) with
    | some r0 =>
      refine ⟨fun _ => ⟨r0, List.mem_of_find?_eq_some hf,
        by simpa [matchesId] using List.find?_some hf⟩, fun _ => by simp⟩
    | none =>
      refine ⟨fun hcon => absurd rfl hcon, ?_⟩
      rintro ⟨r, hr, hcid⟩
      have := List.find?_eq_none.mp hf r hr
      simp [matchesId, hcid] at this

theorem aggregateData_per_country_tally_witness :
    (∀ r ∈ [Row.mk "France" "EU" (some 2)], isValidRow r = true) ∧
    ((∀ e ∈ aggregateData (fun _ => some "FR") [Row.mk "France" "EU" (some 2)],
        e.total = [Row.mk "France" "EU" (some 2)].countP
          (fun r => matchesId (fun _ => some "FR") e.id r)) ∧
     ((aggregateData (fun _ => some "FR") [Row.mk "France" "EU" (some 2)]).map
        AggEntry.id).Nodup ∧
     (∀ id : String,
        id ∈ (aggregateData (fun _ => some "FR") [Row.mk "France" "EU" (some 2)]).map
          AggEntry.id ↔
          ∃ r ∈ [Row.mk "France" "EU" (some 2)],
            countryId (fun _ => some "FR") r = id)) :=
  ⟨by decide,
    aggregateData_per_country_tally (fun _ => some "FR") [Row.mk "France" "EU" (some 2)]
      (by decide)⟩

/-- C6: CSV headers are matched case-insensitively: with a header row that is
an element-wise casing variant of another (duplicate-free) header row — in
particular of the canonical `Country, Region, RandomValue` — the extracted
row is identical; and when no case-insensitive match exists for a name, the
literal canonical string is used as the column key. -/
theorem header_case_insensitive (H K : List String) (cells : List String)
    (hmap : H.map jsToLower = K.map jsToLower)
    (hndH : H.Nodup) (hndK : K.Nodup) :
    (mapRow (countryHeader H) (regionHeader H) (valueHeader H) (H.zip cells) =
      mapRow (countryHeader K) (regionHeader K) (valueHeader K) (K.zip cells)) ∧
    ((∀ h ∈ H, jsToLower h ≠ "country") → countryHeader H = "Country") ∧
    ((∀ h ∈ H, jsToLower h ≠ "region") → regionHeader H = "Region") ∧
    ((∀ h ∈ H, jsToLower h ≠ "randomvalue") → valueHeader H = "RandomValue") := by
  refine ⟨?_, ?_, ?_, ?_⟩
  · have h1 := rowLookup_resolve_congr "country" "Country" (by decide)
      H K cells hmap hndH hndK
    have h2 := rowLookup_resolve_congr "region" "Region" (by decide)
      H K cells hmap hndH hndK
    have h3 := rowLookup_resolve_congr "randomvalue" "RandomValue" (by decide)
      H K cells hmap hndH hndK
    simp only [mapRow, countryHeader, regionHeader, valueHeader]
    rw [h1, h2, h3]
  · intro hno
    unfold countryHeader resolveHeader
    rw [List.find?_eq_none.mpr (fun x hx => by simpa using hno x hx)]
    rfl
  · intro hno
    unfold regionHeader resolveHeader
    rw [List.find?_eq_none.mpr (fun x hx => by simpa using hno x hx)]
    rfl
  · intro hno
    unfold valueHeader resolveHeader
    rw [List.find?_eq_none.mpr (fun x hx => by simpa using hno x hx)]
    rfl

theorem header_case_insensitive_witness :
    (["COUNTRY", "region", "randomVALUE"].map jsToLower =
      ["Country", "Region", "RandomValue"].map jsToLower) ∧
    mapRow (countryHeader ["COUNTRY", "region", "randomVALUE"])
        (regionHeader ["COUNTRY", "region", "randomVALUE"])
        (valueHeader ["COUNTRY", "region", "randomVALUE"])
        (["COUNTRY", "region", "randomVALUE"].zip ["France", "EU", "2"]) =
      mapRow (countryHeader ["Country", "Region", "RandomValue"])
        (regionHeader ["Country", "Region", "RandomValue"])
        (valueHeader ["Country", "Region", "RandomValue"])
        (["Country", "Region", "RandomValue"].zip ["France", "EU", "2"]) :=
  ⟨by decide,
    (header_case_insensitive ["COUNTRY", "region", "randomVALUE"]
      ["Country", "Region", "RandomValue"] ["France", "EU", "2"]
      (by decide) (by decide) (by decide)).1⟩

/-- C8: every entry built by `aggregateData` from kept rows has `total ≥ 1`,
so the `total === 0` guard of `getColorValue` is never taken on such an
entry: `getColorValue` always returns its unguarded body there. -/
theorem aggregateData_total_pos (codes : String → Option String) (rows : List Row)
    (hv : ∀ r ∈ rows, isValidRow r = true) :
    ∀ e ∈ aggregateData codes rows,
      1 ≤ e.total ∧ ∀ view : String, getColorValue e view = getColorValueBody e view := by
  intro e he
  obtain ⟨r0, hf, -, -, -, ht, -⟩ := counts_of_mem he
  have htot : e.total = rows.countP (matchesId codes e.id) := by
    rw [ht, tally_sum codes e.id rows hv]
  have hpos : 0 < rows.countP (matchesId codes e.id) :=
    List.countP_pos_iff.mpr ⟨r0, List.mem_of_find?_eq_some hf, List.find?_some hf⟩
  have h1 : 1 ≤ e.total := by omega
  refine ⟨h1, fun view => ?_⟩
  unfold getColorValue
  rw [if_neg (by omega)]

theorem aggregateData_total_pos_witness :
    (∀ r ∈ [Row.mk "France" "EU" (some 2)], isValidRow r = true) ∧
    (∀ e ∈ aggregateData (fun _ => some "FR") [Row.mk "France" "EU" (some 2)],
      1 ≤ e.total ∧ ∀ view : String, getColorValue e view = getColorValueBody e view) :=
  ⟨by decide,
    aggregateData_total_pos (fun _ => some "FR") [Row.mk "France" "EU" (some 2)]
      (by decide)⟩

/-- C9: for an aggregate entry with non-negative counts summing to a positive
total, `getColorValue` returns a rational in `[0, 1]` for each of the four
views; the overall score `(2·positive + neutral − 2·negative) / (2·total)`
lies in `[−1, 1]` and the overall view returns its normalisation into
`[0, 1]`. -/
theorem getColorValue_bounds (cd : AggEntry) (view : String)
    (hsum : cd.total = cd.positive + cd.neutral + cd.negative)
    (hpos : 0 < cd.total)
    (hview : view ∈ (["overall", "positive", "neutral", "negative"] : List String)) :
    (0 ≤ getColorValue cd view ∧ getColorValue cd view ≤ 1) ∧
    (-1 ≤ (2 * (cd.positive : ℚ) + (cd.neutral : ℚ) - 2 * (cd.negative : ℚ)) /
        (2 * (cd.total : ℚ)) ∧
     (2 * (cd.positive : ℚ) + (cd.neutral : ℚ) - 2 * (cd.negative : ℚ)) /
        (2 * (cd.total : ℚ)) ≤ 1 ∧
     getColorValue cd "overall" =
       ((2 * (cd.positive : ℚ) + (cd.neutral : ℚ) - 2 * (cd.negative : ℚ)) /
         (2 * (cd.total : ℚ)) + 1) / 2) := by
  have hT : (0 : ℚ) < (cd.total : ℚ) := by exact_mod_cast hpos
  have hT2 : (0 : ℚ) < 2 * (cd.total : ℚ) := by linarith
  have hsumQ : (cd.total : ℚ) = (cd.positive : ℚ) + (cd.neutral : ℚ) + (cd.negative : ℚ) := by
    exact_mod_cast congrArg (Nat.cast : Nat → ℚ) hsum
  have hp0 : (0 : ℚ) ≤ (cd.positive : ℚ) := Nat.cast_nonneg _
  have hn0 : (0 : ℚ) ≤ (cd.neutral : ℚ) := Nat.cast_nonneg _
  have hg0 : (0 : ℚ) ≤ (cd.negative : ℚ) := Nat.cast_nonneg _
  have hne : cd.total ≠ 0 := Nat.pos_iff_ne_zero.mp hpos
  have hscore_le : (2 * (cd.positive : ℚ) + (cd.neutral : ℚ) - 2 * (cd.negative : ℚ)) /
      (2 * (cd.total : ℚ)) ≤ 1 := by
    rw [div_le_one hT2]
    linarith
  have hscore_ge : (-1 : ℚ) ≤ (2 * (cd.positive : ℚ) + (cd.neutral : ℚ) -
      2 * (cd.negative : ℚ)) / (2 * (cd.total : ℚ)) := by
    rw [le_div_iff₀ hT2]
    linarith
  have hoverall : getColorValue cd "overall" =
      ((2 * (cd.positive : ℚ) + (cd.neutral : ℚ) - 2 * (cd.negative : ℚ)) /
        (2 * (cd.total : ℚ)) + 1) / 2 := by
    unfold getColorValue getColorValueBody
    rw [if_neg hne, if_neg (by decide), if_neg (by decide), if_neg (by decide)]
  refine ⟨?_, hscore_ge, hscore_le, hoverall⟩
  have hratio : ∀ k : Nat, (k : ℚ) ≤ (cd.total : ℚ) →
      0 ≤ (k : ℚ) / (cd.total : ℚ) ∧ (k : ℚ) / (cd.total : ℚ) ≤ 1 := by
    intro k hk
    exact ⟨div_nonneg (Nat.cast_nonneg _) (le_of_lt hT), (div_le_one hT).mpr hk⟩
  simp only [List.mem_cons, List.not_mem_nil, or_false] at hview
  rcases hview with rfl | rfl | rfl | rfl
  · rw [hoverall]
    constructor <;> linarith
  · unfold getColorValue getColorValueBody
    rw [if_neg hne, if_pos rfl]
    exact hratio cd.positive (by linarith)
  · unfold getColorValue getColorValueBody
    rw [if_neg hne, if_neg (by decide), if_pos rfl]
    exact hratio cd.neutral (by linarith)
  · unfold getColorValue getColorValueBody
    rw [if_neg hne, if_neg (by decide), if_neg (by decide), if_pos rfl]
    exact hratio cd.negative (by linarith)

theorem getColorValue_bounds_witness :
    ((1 : Nat) = 1 + 0 + 0 ∧ 0 < (1 : Nat) ∧
      ("overall" : String) ∈ (["overall", "positive", "neutral", "negative"] : List String)) ∧
    ((0 ≤ getColorValue ⟨"FR", "France", 1, 0, 0, 1⟩ "overall" ∧
      getColorValue ⟨"FR", "France", 1, 0, 0, 1⟩ "overall" ≤ 1) ∧
     (-1 ≤ (2 * ((1 : Nat) : ℚ) + ((0 : Nat) : ℚ) - 2 * ((0 : Nat) : ℚ)) /
        (2 * ((1 : Nat) : ℚ)) ∧
      (2 * ((1 : Nat) : ℚ) + ((0 : Nat) : ℚ) - 2 * ((0 : Nat) : ℚ)) /
        (2 * ((1 : Nat) : ℚ)) ≤ 1 ∧
      getColorValue ⟨"FR", "France", 1, 0, 0, 1⟩ "overall" =
        ((2 * ((1 : Nat) : ℚ) + ((0 : Nat) : ℚ) - 2 * ((0 : Nat) : ℚ)) /
          (2 * ((1 : Nat) : ℚ)) + 1) / 2)) :=
  ⟨⟨rfl, by decide, by decide⟩,
    getColorValue_bounds ⟨"FR", "France", 1, 0, 0, 1⟩ "overall" rfl (by decide) (by decide)⟩

/-- C10: the per-country counts computed by `aggregateData` are invariant
under any permutation of the input rows; only the `displayName` can depend on
row order — it is the `country` of the first row mapped to the identifier. -/
theorem aggregateData_perm_invariant (codes : String → Option String)
    (rows rows' : List Row) (hperm : rows.Perm rows') (id : String) :
    ((aggregateData codes rows).find? (fun e => decide (e.id = id))).map countsQuad =
      ((aggregateData codes rows').find? (fun e => decide (e.id = id))).map countsQuad ∧
    ((aggregateData codes rows).find? (fun e => decide (e.id = id))).map
        AggEntry.displayName =
      (rows.find? (matchesId codes id)).map Row.country := by
  have htp : tallyPos codes id rows = tallyPos codes id rows' := hperm.countP_eq _
  have htn : tallyNeu codes id rows = tallyNeu codes id rows' := hperm.countP_eq _
  have htg : tallyNeg codes id rows = tallyNeg codes id rows' := hperm.countP_eq _
  constructor
  · rw [find?_aggregateData, find?_aggregateData]
    cases hf : rows.find? (matchesId codes id) with
    | none =>
      have hf' : rows'.find? (matchesId codes id) = none := by
        rw [List.find?_eq_none] at hf ⊢
        intro x hx
        exact hf x (hperm.symm.subset hx)
      rw [hf']
    | some r0 =>
      have hex : (rows'.find? (matchesId codes id)).isSome := by
        rw [List.find?_isSome]
        exact ⟨r0, hperm.subset (List.mem_of_find?_eq_some hf), List.find?_some hf⟩
      rcases Option.isSome_iff_exists.mp hex with ⟨r1, hr1⟩
      rw [hr1]
      simp only [Option.map_some]
      simp [countsQuad, finalizeEntry, tallyCounts, htp, htn, htg]
  · rw [find?_aggregateData]
    cases hf : rows.find? (matchesId codes id) with
    | none => rfl
    | some r0 => simp [finalizeEntry, tallyCounts]

theorem aggregateData_perm_invariant_witness :
    ([Row.mk "France" "EU" (some 2), Row.mk "Italy" "EU" (some 0)].Perm
      [Row.mk "Italy" "EU" (some 0), Row.mk "France" "EU" (some 2)]) ∧
    (((aggregateData (fun _ => some "FR")
          [Row.mk "France" "EU" (some 2), Row.mk "Italy" "EU" (some 0)]).find?
        (fun e => decide (e.id = "FR"))).map countsQuad =
      ((aggregateData (fun _ => some "FR")
          [Row.mk "Italy" "EU" (some 0), Row.mk "France" "EU" (some 2)]).find?
        (fun e => decide (e.id = "FR"))).map countsQuad ∧
     ((aggregateData (fun _ => some "FR")
          [Row.mk "France" "EU" (some 2), Row.mk "Italy" "EU" (some 0)]).find?
        (fun e => decide (e.id = "FR"))).map AggEntry.displayName =
      ([Row.mk "France" "EU" (some 2), Row.mk "Italy" "EU" (some 0)].find?
        (matchesId (fun _ => some "FR") "FR")).map Row.country) :=
  ⟨by decide,
    aggregateData_perm_invariant (fun _ => some "FR")
      [Row.mk "France" "EU" (some 2), Row.mk "Italy" "EU" (some 0)]
      [Row.mk "Italy" "EU" (some 0), Row.mk "France" "EU" (some 2)]
      (by decide) "FR"⟩

end Claims

end GeoSentiment
